import Mathlib

/-!
Verification development for the DDA/Move subsystem of the Duet3Expansion
firmware, together with its ADC input management and self-test report
generation.  The definitions below are shallow embeddings of the C++
sources (`Movement/Move.h`, `Hardware/AnalogIn.cpp`,
`CommandProcessing/CommandProcessor.cpp`).  Functions whose bodies live in
compilation units that are not available (`Move.cpp`, `DDA.cpp`) are
modelled from the specification and are marked as such in their doc
comments.
-/

namespace Duet

/-- Ring capacity for this board, from `Move.h`: `const unsigned int DdaRingLength = 20;`. -/
def DdaRingLength : Nat := 20

/-- Ring capacity of the conditional build variant of `Move.h`:
30 on SAM4E/SAM4S/SAME70, 20 otherwise (`#if SAM4E || SAM4S || SAME70`). -/
def DdaRingLengthVariant (sam4e sam4s same70 : Bool) : Nat :=
  if sam4e || sam4s || same70 then 30 else 20

/-- Modulus of the C++ `uint32_t` type. -/
def uint32Mod : Nat := 4294967296

/-- Lifecycle state of a move descriptor (`DDA::DDAState`). -/
inductive DDAState where
  | empty
  | provisional
  | frozen
  | executing
deriving DecidableEq

/-- A move descriptor (DDA).  `dstate` is its lifecycle state and `seqNum` its
monotonically increasing sequence number.  `stepSeq` is the oracle sequence of
return values of `DDA::Step` (true while more step events are immediately due),
and `stepIntervals` the per-axis step intervals; both stand in for the timing
data computed in `DDA.cpp`, which is not part of the sources. -/
structure DDA where
  dstate : DDAState
  seqNum : Nat
  stepSeq : List Bool
  stepIntervals : List Nat
deriving DecidableEq

/-- A descriptor slot holding no move. -/
def emptyDda : DDA := ⟨DDAState.empty, 0, [], []⟩

/-- State of the `Move` object: the DDA ring with its three cursors (slot
indices standing for the C++ pointers into the ring array), the volatile
`currentDda` (index of the executing descriptor, or none), and the counters. -/
structure MoveState where
  ring : List DDA
  ddaRingAddPointer : Nat
  ddaRingGetPointer : Nat
  ddaRingCheckPointer : Nat
  currentDda : Option Nat
  scheduledMoves : Nat
  completedMoves : Nat
  numHiccups : Nat
  stepErrors : Nat
deriving DecidableEq

/-- The descriptor in slot `i` of the ring. -/
def slotAt (s : MoveState) (i : Nat) : DDA := s.ring.getD i emptyDda

/-- State of the `Move` object after `Init`: all slots empty, cursors at slot 0,
no current DDA, counters zero. -/
def initMove : MoveState :=
  { ring := List.replicate DdaRingLength emptyDda
    ddaRingAddPointer := 0
    ddaRingGetPointer := 0
    ddaRingCheckPointer := 0
    currentDda := none
    scheduledMoves := 0
    completedMoves := 0
    numHiccups := 0
    stepErrors := 0 }

/-- Embedding of `Move::DDARingEmpty` (Move.h):
`return ddaRingGetPointer == ddaRingAddPointer && ddaRingAddPointer->GetState() == DDA::DDAState::empty;`. -/
def DDARingEmpty (s : MoveState) : Bool :=
  s.ddaRingGetPointer == s.ddaRingAddPointer
    && (slotAt s s.ddaRingAddPointer).dstate == DDAState.empty

/-- Embedding of `Move::NoLiveMovement` (Move.h):
`return DDARingEmpty() && currentDda == nullptr;`. -/
def NoLiveMovement (s : MoveState) : Bool :=
  DDARingEmpty s && s.currentDda == none

/-- Embedding of `Move::AllMovesAreFinished` (Move.h): `return NoLiveMovement();`.
The function reads but never writes, so the embedding returns the unchanged
state alongside the result. -/
def AllMovesAreFinished (s : MoveState) : Bool × MoveState :=
  (NoLiveMovement s, s)

/-- Modelled from the spec (DDA.cpp is not in the sources): `DDA::Start`
promotes the descriptor to `executing` and returns whether `Step` needs to be
called immediately.  All other descriptor fields are unchanged. -/
def ddaStart (d : DDA) (startTime : Nat) : Bool × DDA :=
  (decide (d.stepSeq ≠ []), { d with dstate := DDAState.executing })

/-- Embedding of `Move::StartNextMove` (Move.h):
`currentDda = ddaRingGetPointer; return currentDda->Start(startTime);`
(with precondition `ddaRingGetPointer->GetState() == DDA::frozen`). -/
def StartNextMove (s : MoveState) (startTime : Nat) : Bool × MoveState :=
  let r := ddaStart (slotAt s s.ddaRingGetPointer) startTime
  (r.1, { s with currentDda := some s.ddaRingGetPointer
                 ring := s.ring.set s.ddaRingGetPointer r.2 })

/-- Modelled from the spec (DDA.cpp is not in the sources): `DDA::Step` emits
the step pulses that are due and reports whether more events are immediately
pending; the report is the next value of the descriptor's oracle sequence,
`false` once the sequence is exhausted. -/
def ddaStep (d : DDA) : Bool × DDA :=
  match d.stepSeq with
  | [] => (false, d)
  | b :: rest => (b, { d with stepSeq := rest })

/-- The `do { } while (currentDda->Step())` loop of `Move::Interrupt`, acting on
the oracle sequence of the current descriptor.  Returns the number of `Step`
calls made and the remaining oracle sequence. -/
def stepLoop : List Bool → Nat × List Bool
  | [] => (1, [])
  | false :: rest => (1, rest)
  | true :: rest =>
    let r := stepLoop rest
    (r.1 + 1, r.2)

/-- Result of the `Interrupt` loop on a descriptor: its oracle sequence is
consumed up to and including the first `false`. -/
def consumeSteps (d : DDA) : DDA := { d with stepSeq := (stepLoop d.stepSeq).2 }

/-- Number of leading `true` entries of a list of booleans. -/
def leadingTrues : List Bool → Nat
  | true :: rest => leadingTrues rest + 1
  | _ => 0

/-- Embedding of `Move::Interrupt` (Move.h): if `currentDda` is null, return
immediately; otherwise run `do { } while (currentDda->Step())`. -/
def Interrupt (s : MoveState) : MoveState :=
  match s.currentDda with
  | none => s
  | some i =>
    let d := slotAt s i
    { s with ring := s.ring.set i { d with stepSeq := (stepLoop d.stepSeq).2 } }

/-- Modelled from the spec (Move.cpp is not in the sources):
`Move::CurrentMoveCompleted` signals completion of the current move — it
increments the completed-move counter, clears `currentDda`, reclaims the
descriptor to `empty` and advances the get cursor. -/
def CurrentMoveCompleted (s : MoveState) : MoveState :=
  match s.currentDda with
  | none => s
  | some i =>
    { s with currentDda := none
             completedMoves := (s.completedMoves + 1) % uint32Mod
             ring := s.ring.set i emptyDda
             ddaRingGetPointer := (s.ddaRingGetPointer + 1) % DdaRingLength }

/-- Modelled from the spec (Move.cpp is not in the sources): `Move::DDARingAdd`
fails with no side effect if the slot at the add cursor is not `empty`;
otherwise it populates a new `provisional` descriptor carrying the next
sequence number, advances the add cursor and counts the scheduled move. -/
def DDARingAdd (s : MoveState) (steps : List Bool) (intervals : List Nat) :
    Bool × MoveState :=
  if (slotAt s s.ddaRingAddPointer).dstate = DDAState.empty then
    (true,
     { s with
        ring := s.ring.set s.ddaRingAddPointer
          ⟨DDAState.provisional, s.scheduledMoves, steps, intervals⟩
        ddaRingAddPointer := (s.ddaRingAddPointer + 1) % DdaRingLength
        scheduledMoves := (s.scheduledMoves + 1) % uint32Mod })
  else (false, s)

/-- Does the descriptor hold fully committed timing data (`frozen` or already
`executing`)? -/
def committedDda (d : DDA) : Bool :=
  d.dstate == DDAState.frozen || d.dstate == DDAState.executing

/-- Scan the ring forward from offset `i` after the get cursor `g`, skipping
committed descriptors, and return the offset of the first uncommitted slot. -/
def scanUncommitted (s : MoveState) (g : Nat) : Nat → Nat → Option Nat
  | 0, _ => none
  | fuel + 1, i =>
    if committedDda (slotAt s ((g + i) % DdaRingLength))
    then scanUncommitted s g fuel (i + 1)
    else some i

/-- Modelled from the spec (Move.cpp is not in the sources): the look-ahead
pass of `Move::DoLookAhead` freezes a `provisional` descriptor only once every
descriptor ahead of it (toward the get cursor) is already frozen or executing,
so descriptors freeze in ring-consumption order.  The model freezes the oldest
such descriptor, if any. -/
def DoLookAhead (s : MoveState) : MoveState :=
  match scanUncommitted s s.ddaRingGetPointer DdaRingLength 0 with
  | none => s
  | some i =>
    let j := (s.ddaRingGetPointer + i) % DdaRingLength
    let d := slotAt s j
    if d.dstate = DDAState.provisional
    then { s with ring := s.ring.set j { d with dstate := DDAState.frozen } }
    else s

/-- Embedding of `Move::GetScheduledMoves` (Move.h). -/
def GetScheduledMoves (s : MoveState) : Nat := s.scheduledMoves

/-- Embedding of `Move::GetCompletedMoves` (Move.h). -/
def GetCompletedMoves (s : MoveState) : Nat := s.completedMoves

/-- Embedding of `Move::ResetMoveCounters` (Move.h):
`scheduledMoves = completedMoves = 0;`. -/
def ResetMoveCounters (s : MoveState) : MoveState :=
  { s with scheduledMoves := 0, completedMoves := 0 }

/-- Modelled from the spec (Move.cpp is not in the sources):
`Move::GetAndClearHiccups` returns the accumulated hiccup count and clears it. -/
def GetAndClearHiccups (s : MoveState) : Nat × MoveState :=
  (s.numHiccups, { s with numHiccups := 0 })

/-- Modelled from the spec (DDA.cpp is not in the sources):
`DDA::GetStepInterval` returns the current step interval of the given axis,
adjusted for the microstepping shift. -/
def DDAGetStepInterval (d : DDA) (axis microstepShift : Nat) : Nat :=
  (d.stepIntervals.getD axis 0) <<< microstepShift

/-- Embedding of `Move::GetStepInterval` (Move.h): capture the volatile
`currentDda` once; if the captured value is null return 0, otherwise return the
captured descriptor's step interval. -/
def GetStepInterval (s : MoveState) (axis microstepShift : Nat) : Nat :=
  match s.currentDda with
  | none => 0
  | some i => DDAGetStepInterval (slotAt s i) axis microstepShift

/-- Events driving the Move object: a task-side enqueue (`DDARingAdd`), a
look-ahead pass, the scheduler promoting the next frozen descriptor
(`StartNextMove`, guarded as the step scheduler does), a move completion
signal, a timer interrupt, and a counter reset. -/
inductive MoveEvent where
  | enqueue : List Bool → List Nat → MoveEvent
  | lookAhead : MoveEvent
  | startNext : Nat → MoveEvent
  | complete : MoveEvent
  | interrupt : MoveEvent
  | reset : MoveEvent
deriving DecidableEq

/-- One event of the Move object.  Besides the next state it returns the
observation of the event: the sequence numbers of the descriptors whose
completion it signals. -/
def moveStep (s : MoveState) : MoveEvent → MoveState × List Nat
  | MoveEvent.enqueue steps intervals => ((DDARingAdd s steps intervals).2, [])
  | MoveEvent.lookAhead => (DoLookAhead s, [])
  | MoveEvent.startNext t =>
    if s.currentDda = none ∧ (slotAt s s.ddaRingGetPointer).dstate = DDAState.frozen
    then ((StartNextMove s t).2, [])
    else (s, [])
  | MoveEvent.complete =>
    match s.currentDda with
    | some i => (CurrentMoveCompleted s, [(slotAt s i).seqNum])
    | none => (s, [])
  | MoveEvent.interrupt => (Interrupt s, [])
  | MoveEvent.reset => (ResetMoveCounters s, [])

/-- Run a sequence of events, concatenating the completion observations. -/
def runMove : MoveState → List MoveEvent → MoveState × List Nat
  | s, [] => (s, [])
  | s, e :: es =>
    let r := moveStep s e
    let r2 := runMove r.1 es
    (r2.1, r.2 ++ r2.2)

/-- Number of enqueue events in a trace. -/
def countEnqueues : List MoveEvent → Nat
  | [] => 0
  | MoveEvent.enqueue _ _ :: es => countEnqueues es + 1
  | _ :: es => countEnqueues es

/-- State reached from `initMove` by filling the ring completely: the add
cursor has wrapped around onto the get cursor while every slot holds a
provisional descriptor. -/
def fullRingState : MoveState :=
  (runMove initMove (List.replicate DdaRingLength (MoveEvent.enqueue [] []))).1

/-- State reached from `initMove` by an enqueue followed by a look-ahead pass:
the descriptor at the get cursor is frozen. -/
def frozenFrontState : MoveState :=
  (runMove initMove [MoveEvent.enqueue [true] [7], MoveEvent.lookAhead]).1

/-- State reached from `initMove` by enqueue, look-ahead and promotion: a
descriptor is currently executing. -/
def runningState : MoveState :=
  (runMove initMove
    [MoveEvent.enqueue [true] [7], MoveEvent.lookAhead, MoveEvent.startNext 0]).1

/-- Trace enqueueing two moves and driving both through freeze, promotion and
completion. -/
def fifoTrace : List MoveEvent :=
  [MoveEvent.enqueue [true] [3], MoveEvent.enqueue [] [5], MoveEvent.lookAhead,
   MoveEvent.startNext 0, MoveEvent.interrupt, MoveEvent.complete,
   MoveEvent.lookAhead, MoveEvent.startNext 100, MoveEvent.complete]

/-- Invariant of the Move ring, relating a state to the number `e` of moves
enqueued so far, the number `c` of moves completed so far, and the number `f`
of live descriptors already committed (frozen or executing).  The live
descriptors occupy the `e - c` slots following the get cursor, carry
consecutive sequence numbers, and consist of a committed prefix followed by
provisional descriptors; all other slots are empty.  The executing descriptor,
if any, is the one at the get cursor and is referenced by `currentDda`. -/
structure RingInv (s : MoveState) (e c f : Nat) : Prop where
  len : s.ring.length = DdaRingLength
  hce : c ≤ e
  hcap : e ≤ DdaRingLength
  hf : f ≤ e - c
  hget : s.ddaRingGetPointer = c % DdaRingLength
  hadd : s.ddaRingAddPointer = e % DdaRingLength
  hsch : s.scheduledMoves = e
  hcmp : s.completedMoves = c
  live_seq : ∀ i, i < e - c → (slotAt s ((c + i) % DdaRingLength)).seqNum = c + i
  live_com : ∀ i, i < f →
    (slotAt s ((c + i) % DdaRingLength)).dstate = DDAState.frozen ∨
    (slotAt s ((c + i) % DdaRingLength)).dstate = DDAState.executing
  live_prov : ∀ i, f ≤ i → i < e - c →
    (slotAt s ((c + i) % DdaRingLength)).dstate = DDAState.provisional
  dead : ∀ i, e - c ≤ i → i < DdaRingLength →
    (slotAt s ((c + i) % DdaRingLength)).dstate = DDAState.empty
  cur : ∀ k, s.currentDda = some k →
    k = s.ddaRingGetPointer ∧ c < e ∧
    (slotAt s s.ddaRingGetPointer).dstate = DDAState.executing
  exec_front : ∀ i, i < e - c →
    (slotAt s ((c + i) % DdaRingLength)).dstate = DDAState.executing →
    i = 0 ∧ s.currentDda = some s.ddaRingGetPointer

/-- ADC conversion state (`AdcClass::State`). -/
inductive AdcStateEnum where
  | noChannels
  | starting
  | idle
  | converting
  | ready
deriving DecidableEq

/-- Maximum length of the ADC read sequence (`AdcClass::MaxSequenceLength`). -/
def MaxSequenceLength : Nat := 16

/-- Number of channels per ADC (`AdcClass::NumAdcChannels`). -/
def NumAdcChannels : Nat := 32

/-- MUXPOS value of the PTAT temperature sensor input, from the SAME5x vendor
header (not part of the sources); its exact value only matters through
`sensorNumber + ADC_INPUTCTRL_MUXPOS_PTAT_Val < 32` for `sensorNumber < 2`. -/
def ADC_INPUTCTRL_MUXPOS_PTAT_Val : Nat := 25

/-- MUXNEG ground-select constant from the vendor header (not part of the
sources); its exact value is irrelevant to the claims. -/
def ADC_INPUTCTRL_MUXNEG_GND : Nat := 6144

/-- Reference-select constant from the vendor header (not part of the
sources); its exact value is irrelevant to the claims. -/
def ADC_REFCTRL_REFSEL_INTVCC1 : Nat := 5

/-- State of one `AdcClass` instance: the enabled-channel count and bitmask,
the conversion state, and the fixed-size per-slot arrays (callbacks, tick
bookkeeping, DMA input registers, and results indexed by channel).  Callback
function pointers and parameters are modelled as numeric identifiers. -/
structure AdcState where
  numChannelsEnabled : Nat
  channelsEnabled : Nat
  adcState : AdcStateEnum
  callbackFunctions : List Nat
  callbackParams : List Nat
  ticksPerCall : List Nat
  ticksAtLastCall : List Nat
  inputRegisters : List Nat
  resultsByChannel : List Nat
deriving DecidableEq

/-- State established by the `AdcClass` constructor: no channels enabled, all
arrays zeroed.  `callbackFunctions`, `callbackParams`, `ticksPerCall` and
`ticksAtLastCall` have `MaxSequenceLength` entries, `inputRegisters` has
`2 * MaxSequenceLength` and `resultsByChannel` has `NumAdcChannels`. -/
def adcInit : AdcState :=
  { numChannelsEnabled := 0
    channelsEnabled := 0
    adcState := AdcStateEnum.noChannels
    callbackFunctions := List.replicate MaxSequenceLength 0
    callbackParams := List.replicate MaxSequenceLength 0
    ticksPerCall := List.replicate MaxSequenceLength 0
    ticksAtLastCall := List.replicate MaxSequenceLength 0
    inputRegisters := List.replicate (2 * MaxSequenceLength) 0
    resultsByChannel := List.replicate NumAdcChannels 0 }

/-- Embedding of `AdcClass::InternalEnableChannel` (AnalogIn.cpp): under
`chan < 32`, fill the per-slot arrays at index `numChannelsEnabled`, clear the
result for the channel, increment the count, set the channel bit, and switch to
`starting` when the first channel is enabled.  `now` stands for `millis()`. -/
def InternalEnableChannel (s : AdcState)
    (chan refCtrl fn param pTicksPerCall now : Nat) : Bool × AdcState :=
  if chan < 32 then
    (true,
     { s with
        callbackFunctions := s.callbackFunctions.set s.numChannelsEnabled fn
        callbackParams := s.callbackParams.set s.numChannelsEnabled param
        ticksPerCall := s.ticksPerCall.set s.numChannelsEnabled pTicksPerCall
        ticksAtLastCall := s.ticksAtLastCall.set s.numChannelsEnabled now
        inputRegisters :=
          (s.inputRegisters.set (2 * s.numChannelsEnabled)
            (ADC_INPUTCTRL_MUXNEG_GND ||| chan)).set
            (2 * s.numChannelsEnabled + 1) refCtrl
        resultsByChannel := s.resultsByChannel.set chan 0
        numChannelsEnabled := s.numChannelsEnabled + 1
        channelsEnabled := s.channelsEnabled ||| (1 <<< chan)
        adcState :=
          if s.numChannelsEnabled + 1 = 1 then AdcStateEnum.starting
          else s.adcState })
  else (false, s)

/-- Embedding of `AdcClass::EnableChannel` (AnalogIn.cpp): fail if the
sequence is full or the channel number is out of range, else delegate to
`InternalEnableChannel`. -/
def EnableChannel (s : AdcState) (chan fn param pTicksPerCall now : Nat) :
    Bool × AdcState :=
  if s.numChannelsEnabled = MaxSequenceLength ∨ MaxSequenceLength ≤ chan
  then (false, s)
  else InternalEnableChannel s chan ADC_REFCTRL_REFSEL_INTVCC1 fn param
    pTicksPerCall now

/-- Embedding of `AdcClass::EnableTemperatureSensor` (AnalogIn.cpp): fail if
the sequence is full or the sensor number is out of range, else delegate to
`InternalEnableChannel` on the corresponding PTAT/CTAT input. -/
def EnableTemperatureSensor (s : AdcState)
    (sensorNumber fn param pTicksPerCall now : Nat) : Bool × AdcState :=
  if s.numChannelsEnabled = MaxSequenceLength ∨ 2 ≤ sensorNumber
  then (false, s)
  else InternalEnableChannel s (sensorNumber + ADC_INPUTCTRL_MUXPOS_PTAT_Val)
    ADC_REFCTRL_REFSEL_INTVCC1 fn param pTicksPerCall now

/-- Enable requests arriving at one `AdcClass` instance. -/
inductive AdcEvent where
  | enableChannel (chan fn param ticks now : Nat)
  | enableTempSensor (sensorNumber fn param ticks now : Nat)
deriving DecidableEq

/-- Apply one enable request. -/
def adcApply (s : AdcState) : AdcEvent → AdcState
  | AdcEvent.enableChannel c f p t n => (EnableChannel s c f p t n).2
  | AdcEvent.enableTempSensor sn f p t n => (EnableTemperatureSensor s sn f p t n).2

/-- Run a sequence of enable requests. -/
def runAdc : AdcState → List AdcEvent → AdcState
  | s, [] => s
  | s, e :: es => runAdc (adcApply s e) es

/-- Structural invariant of an `AdcClass` instance: the enabled-channel count
never exceeds `MaxSequenceLength` and the per-slot arrays keep their fixed
sizes, so every in-range slot write stays within bounds. -/
def AdcInv (s : AdcState) : Prop :=
  s.numChannelsEnabled ≤ MaxSequenceLength ∧
  s.callbackFunctions.length = MaxSequenceLength ∧
  s.callbackParams.length = MaxSequenceLength ∧
  s.ticksPerCall.length = MaxSequenceLength ∧
  s.ticksAtLastCall.length = MaxSequenceLength ∧
  s.inputRegisters.length = 2 * MaxSequenceLength ∧
  s.resultsByChannel.length = NumAdcChannels

/-- State reached by enabling a channel `MaxSequenceLength` times: the read
sequence is completely full. -/
def fullAdcState : AdcState :=
  runAdc adcInit
    (List.replicate MaxSequenceLength (AdcEvent.enableChannel 0 0 0 0 0))

/-- Over-temperature shutdown bit of the accumulated driver status word,
modelled from the TMC driver header (not part of the sources). -/
def TMC_RR_OT : Nat := 2

/-- Over-temperature warning bit of the accumulated driver status word,
modelled from the TMC driver header (not part of the sources). -/
def TMC_RR_OTPW : Nat := 1

/-- Short-to-ground bits of the accumulated driver status word, modelled from
the TMC driver header (not part of the sources). -/
def TMC_RR_S2G : Nat := 12

/-- C++ built-in `operator||` applied to two integers and converted back to an
integer, as in the expression `stat & (TMC_RR_OT || TMC_RR_OTPW)` of
`GenerateTestReport` (CommandProcessor.cpp line 113). -/
def cppLogicalOr (a b : Nat) : Nat := if a ≠ 0 ∨ b ≠ 0 then 1 else 0

/-- Over-temperature test as the code performs it
(CommandProcessor.cpp line 113): `(stat & (TMC_RR_OT || TMC_RR_OTPW)) != 0`. -/
def overTempCode (stat : Nat) : Bool :=
  decide ((stat &&& cppLogicalOr TMC_RR_OT TMC_RR_OTPW) ≠ 0)

/-- Over-temperature condition as the claim states it: the OT bit or the OTPW
bit of the accumulated status word is set. -/
def overTempClaim (stat : Nat) : Bool :=
  decide ((stat &&& (TMC_RR_OT ||| TMC_RR_OTPW)) ≠ 0)

/-- Driver status loop of `GenerateTestReport` (CommandProcessor.cpp lines
107-123), over the list of accumulated status words indexed from `i`: the
report lines appended and the final value of `driversOK`. -/
def driverLines : Nat → List Nat → List String × Bool
  | _, [] => ([], true)
  | i, stat :: rest =>
    let r := driverLines (i + 1) rest
    let l1 : List String :=
      if overTempCode stat
      then ["Driver " ++ toString i ++ " reports over temperature"]
      else []
    let l2 : List String :=
      if (stat &&& TMC_RR_S2G) ≠ 0
      then ["Driver " ++ toString i ++ " reports short-to-ground"]
      else []
    (l1 ++ l2 ++ r.1, (l1.isEmpty && l2.isEmpty) && r.2)

/-- Smart-driver section of `GenerateTestReport` (CommandProcessor.cpp lines
107-134) for a build where only that section is active: the report lines and
the final `testFailed` flag. -/
def GenerateTestReport (stats : List Nat) : List String × Bool :=
  let r := driverLines 0 stats
  let lines := r.1 ++ (if r.2 then ["Driver status OK"] else [])
  let testFailed := !r.2
  (lines ++
    [if testFailed then "***** ONE OR MORE CHECKS FAILED *****"
     else "All checks passed"],
   testFailed)

set_option maxRecDepth 4000

theorem getD_set_self {α : Type} (l : List α) (j : Nat) (d x : α)
    (hj : j < l.length) : (l.set j d).getD j x = d := by
  simp [List.getD, List.getElem?_set_self, hj]

theorem getD_set_ne {α : Type} (l : List α) (i j : Nat) (d x : α)
    (h : i ≠ j) : (l.set i d).getD j x = l.getD j x := by
  simp [List.getD, List.getElem?_set_ne h]

theorem ringIdx_inj {c a b : Nat} (ha : a < DdaRingLength) (hb : b < DdaRingLength)
    (h : (c + a) % DdaRingLength = (c + b) % DdaRingLength) : a = b := by
  simp only [DdaRingLength] at *
  omega

theorem getIdx_lt (c : Nat) : c % DdaRingLength < DdaRingLength := by
  simp only [DdaRingLength]
  omega

theorem committedDda_iff (d : DDA) : committedDda d = true ↔
    (d.dstate = DDAState.frozen ∨ d.dstate = DDAState.executing) := by
  simp [committedDda, Bool.or_eq_true, beq_iff_eq]

theorem scanUncommitted_spec (s : MoveState) (g : Nat) :
    ∀ fuel i r, scanUncommitted s g fuel i = some r →
      i ≤ r ∧ r < i + fuel ∧
      committedDda (slotAt s ((g + r) % DdaRingLength)) = false ∧
      ∀ j, i ≤ j → j < r → committedDda (slotAt s ((g + j) % DdaRingLength)) = true := by
  intro fuel
  induction fuel with
  | zero => intro i r h; cases h
  | succ fuel ih =>
    intro i r h
    rw [scanUncommitted] at h
    by_cases hc : committedDda (slotAt s ((g + i) % DdaRingLength)) = true
    · rw [if_pos hc] at h
      obtain ⟨h1, h2, h3, h4⟩ := ih (i + 1) r h
      refine ⟨by omega, by omega, h3, ?_⟩
      intro j hj1 hj2
      rcases Nat.eq_or_lt_of_le hj1 with rfl | hj1'
      · exact hc
      · exact h4 j hj1' hj2
    · rw [if_neg hc] at h
      cases h
      exact ⟨Nat.le_refl _, by omega, by simpa using hc, fun j hj1 hj2 => absurd (Nat.lt_of_le_of_lt hj1 hj2) (Nat.lt_irrefl _)⟩

theorem ringInv_init : RingInv initMove 0 0 0 := by
  refine ⟨?_, ?_, ?_, ?_, ?_, ?_, ?_, ?_, ?_, ?_, ?_, ?_, ?_, ?_⟩
  · decide
  · decide
  · decide
  · decide
  · decide
  · decide
  · decide
  · decide
  · intro i hi
    omega
  · intro i hi
    omega
  · intro i hi1 hi2
    omega
  · decide
  · intro k hk
    cases hk
  · intro i hi
    omega

theorem ringInv_interrupt {s : MoveState} {e c f : Nat} (h : RingInv s e c f) :
    RingInv (Interrupt s) e c f := by
  rcases hc : s.currentDda with _ | i
  · rw [Interrupt, hc]
    exact h
  · obtain ⟨hkg, hce', hex⟩ := h.cur i hc
    have hilt : i < s.ring.length := by
      rw [hkg, h.hget, h.len]
      exact getIdx_lt c
    have hslot : ∀ j, (slotAt (Interrupt s) j).dstate = (slotAt s j).dstate ∧
        (slotAt (Interrupt s) j).seqNum = (slotAt s j).seqNum := by
      intro j
      rw [Interrupt, hc]
      by_cases hij : i = j
      · subst hij
        simp only [slotAt]
        rw [getD_set_self _ _ _ _ hilt]
        exact ⟨rfl, rfl⟩
      · simp only [slotAt]
        rw [getD_set_ne _ _ _ _ _ hij]
        exact ⟨rfl, rfl⟩
    have hsc : (Interrupt s).ddaRingGetPointer = s.ddaRingGetPointer ∧
        (Interrupt s).ddaRingAddPointer = s.ddaRingAddPointer ∧
        (Interrupt s).scheduledMoves = s.scheduledMoves ∧
        (Interrupt s).completedMoves = s.completedMoves ∧
        (Interrupt s).currentDda = s.currentDda ∧
        (Interrupt s).ring.length = s.ring.length := by
      rw [Interrupt, hc]
      exact ⟨rfl, rfl, rfl, rfl, rfl, by simp⟩
    obtain ⟨hg, ha, hsm, hcm, hcd, hln⟩ := hsc
    refine ⟨?_, h.hce, h.hcap, h.hf, ?_, ?_, ?_, ?_, ?_, ?_, ?_, ?_, ?_, ?_⟩
    · rw [hln, h.len]
    · rw [hg, h.hget]
    · rw [ha, h.hadd]
    · rw [hsm, h.hsch]
    · rw [hcm, h.hcmp]
    · intro j hj
      rw [(hslot _).2]
      exact h.live_seq j hj
    · intro j hj
      rw [(hslot _).1]
      exact h.live_com j hj
    · intro j hj1 hj2
      rw [(hslot _).1]
      exact h.live_prov j hj1 hj2
    · intro j hj1 hj2
      rw [(hslot _).1]
      exact h.dead j hj1 hj2
    · intro k hk
      rw [hcd] at hk
      obtain ⟨h1, h2, h3⟩ := h.cur k hk
      rw [hg, (hslot _).1]
      exact ⟨h1, h2, h3⟩
    · intro j hj hx
      rw [(hslot _).1] at hx
      obtain ⟨h1, h2⟩ := h.exec_front j hj hx
      rw [hg, hcd]
      exact ⟨h1, h2⟩

theorem ringInv_enqueue {s : MoveState} {e c f : Nat} (h : RingInv s e c f)
    (hcap : e + 1 ≤ DdaRingLength) (steps : List Bool) (intervals : List Nat) :
    (DDARingAdd s steps intervals).1 = true ∧
    RingInv (DDARingAdd s steps intervals).2 (e + 1) c f := by
  have hN : (0:Nat) < DdaRingLength := by decide
  have hce := h.hce
  have heltN : e - c < DdaRingLength := by omega
  have hplus : c + (e - c) = e := by omega
  have hempty : (slotAt s s.ddaRingAddPointer).dstate = DDAState.empty := by
    have hd := h.dead (e - c) (Nat.le_refl _) heltN
    rw [hplus] at hd
    rw [h.hadd]
    exact hd
  have hAlen : e % DdaRingLength < s.ring.length := by
    rw [h.len]
    exact getIdx_lt e
  have hres : DDARingAdd s steps intervals =
      (true, { s with
        ring := s.ring.set (e % DdaRingLength)
          ⟨DDAState.provisional, e, steps, intervals⟩
        ddaRingAddPointer := (e % DdaRingLength + 1) % DdaRingLength
        scheduledMoves := (e + 1) % uint32Mod }) := by
    rw [DDARingAdd, if_pos hempty, h.hadd, h.hsch]
  rw [hres]
  refine ⟨rfl, ?_⟩
  have hm32 : (e + 1) % uint32Mod = e + 1 := by
    apply Nat.mod_eq_of_lt
    simp only [DdaRingLength] at hcap
    simp only [uint32Mod]
    omega
  have hslot_new : ∀ j, j = e % DdaRingLength →
      slotAt { s with
        ring := s.ring.set (e % DdaRingLength)
          ⟨DDAState.provisional, e, steps, intervals⟩
        ddaRingAddPointer := (e % DdaRingLength + 1) % DdaRingLength
        scheduledMoves := (e + 1) % uint32Mod } j =
      ⟨DDAState.provisional, e, steps, intervals⟩ := by
    intro j hj
    subst hj
    exact getD_set_self _ _ _ _ hAlen
  have hslot_old : ∀ j, j ≠ e % DdaRingLength →
      slotAt { s with
        ring := s.ring.set (e % DdaRingLength)
          ⟨DDAState.provisional, e, steps, intervals⟩
        ddaRingAddPointer := (e % DdaRingLength + 1) % DdaRingLength
        scheduledMoves := (e + 1) % uint32Mod } j = slotAt s j := by
    intro j hj
    exact getD_set_ne _ _ _ _ _ (Ne.symm hj)
  have huntouched : ∀ i, i < DdaRingLength → i ≠ e - c →
      (c + i) % DdaRingLength ≠ e % DdaRingLength := by
    intro i hi hne heqq
    rw [← hplus] at heqq
    exact hne (ringIdx_inj hi heltN heqq)
  refine ⟨?_, by omega, hcap, ?_, h.hget, ?_, hm32, h.hcmp, ?_, ?_, ?_, ?_, ?_, ?_⟩
  · simp [h.len]
  · have := h.hf
    omega
  · simp only [DdaRingLength]
    omega
  · intro i hi
    by_cases hie : i = e - c
    · subst hie
      rw [hplus, hslot_new _ rfl]
    · have hilt : i < e - c := by omega
      rw [hslot_old _ (huntouched i (by omega) hie)]
      exact h.live_seq i hilt
  · intro i hi
    have hif : i < e - c := by
      have := h.hf
      omega
    rw [hslot_old _ (huntouched i (by omega) (by omega))]
    exact h.live_com i hi
  · intro i hi1 hi2
    by_cases hie : i = e - c
    · subst hie
      rw [hplus, hslot_new _ rfl]
    · have hilt : i < e - c := by omega
      rw [hslot_old _ (huntouched i (by omega) hie)]
      exact h.live_prov i hi1 hilt
  · intro i hi1 hi2
    rw [hslot_old _ (huntouched i hi2 (by omega))]
    exact h.dead i (by omega) hi2
  · intro k hk
    obtain ⟨h1, h2, h3⟩ := h.cur k hk
    refine ⟨h1, by omega, ?_⟩
    have hne : s.ddaRingGetPointer ≠ e % DdaRingLength := by
      rw [h.hget]
      intro hq
      have hq2 : (c + 0) % DdaRingLength = (c + (e - c)) % DdaRingLength := by
        rw [Nat.add_zero, hplus]
        exact hq
      have := ringIdx_inj hN heltN hq2
      omega
    have hrw := hslot_old s.ddaRingGetPointer hne
    exact hrw ▸ h3
  · intro i hi hx
    by_cases hie : i = e - c
    · subst hie
      rw [hplus, hslot_new _ rfl] at hx
      cases hx
    · have hilt : i < e - c := by omega
      rw [hslot_old _ (huntouched i (by omega) hie)] at hx
      exact h.exec_front i hilt hx

theorem ringInv_startNext {s : MoveState} {e c f : Nat} (h : RingInv s e c f)
    (t : Nat) :
    (moveStep s (MoveEvent.startNext t)).2 = [] ∧
    RingInv (moveStep s (MoveEvent.startNext t)).1 e c f := by
  by_cases hg : s.currentDda = none ∧
      (slotAt s s.ddaRingGetPointer).dstate = DDAState.frozen
  · obtain ⟨hcd, hfz⟩ := hg
    have hres : moveStep s (MoveEvent.startNext t) = ((StartNextMove s t).2, []) := by
      simp only [moveStep]
      rw [if_pos ⟨hcd, hfz⟩]
    rw [hres]
    refine ⟨rfl, ?_⟩
    have hN : (0:Nat) < DdaRingLength := by decide
    have hglen : s.ddaRingGetPointer < s.ring.length := by
      rw [h.hget, h.len]
      exact getIdx_lt c
    have hgz : s.ddaRingGetPointer = (c + 0) % DdaRingLength := by
      rw [Nat.add_zero, h.hget]
    have h0lt : 0 < e - c := by
      rcases Nat.eq_zero_or_pos (e - c) with h0 | h0
      · exfalso
        have hd := h.dead 0 (by omega) hN
        rw [← hgz] at hd
        rw [hfz] at hd
        cases hd
      · exact h0
    have hf1 : 1 ≤ f := by
      rcases Nat.eq_zero_or_pos f with h0 | h0
      · exfalso
        have hp := h.live_prov 0 (by omega) h0lt
        rw [← hgz] at hp
        rw [hfz] at hp
        cases hp
      · exact h0
    have hcap := h.hcap
    have hce := h.hce
    have hff := h.hf
    have hsn : (StartNextMove s t).2 = { s with
        currentDda := some s.ddaRingGetPointer
        ring := s.ring.set s.ddaRingGetPointer
          ({ slotAt s s.ddaRingGetPointer with dstate := DDAState.executing }) } := rfl
    rw [hsn]
    have hslot_new : slotAt { s with
        currentDda := some s.ddaRingGetPointer
        ring := s.ring.set s.ddaRingGetPointer
          ({ slotAt s s.ddaRingGetPointer with dstate := DDAState.executing }) }
        s.ddaRingGetPointer =
        ({ slotAt s s.ddaRingGetPointer with dstate := DDAState.executing }) :=
      getD_set_self _ _ _ _ hglen
    have hslot_old : ∀ j, j ≠ s.ddaRingGetPointer → slotAt { s with
        currentDda := some s.ddaRingGetPointer
        ring := s.ring.set s.ddaRingGetPointer
          ({ slotAt s s.ddaRingGetPointer with dstate := DDAState.executing }) }
        j = slotAt s j := by
      intro j hj
      exact getD_set_ne _ _ _ _ _ (Ne.symm hj)
    have hunt : ∀ i, i < DdaRingLength → i ≠ 0 →
        (c + i) % DdaRingLength ≠ s.ddaRingGetPointer := by
      intro i hi hne
      rw [hgz]
      intro heq
      exact hne (ringIdx_inj hi hN heq)
    refine ⟨?_, h.hce, h.hcap, h.hf, h.hget, h.hadd, h.hsch, h.hcmp,
      ?_, ?_, ?_, ?_, ?_, ?_⟩
    · simp [h.len]
    · intro i hi
      by_cases hie : i = 0
      · subst hie
        rw [← hgz, hslot_new]
        have hq := h.live_seq 0 h0lt
        rw [← hgz] at hq
        exact hq
      · rw [hslot_old _ (hunt i (by omega) hie)]
        exact h.live_seq i hi
    · intro i hi
      by_cases hie : i = 0
      · subst hie
        rw [← hgz, hslot_new]
        exact Or.inr rfl
      · rw [hslot_old _ (hunt i (by omega) hie)]
        exact h.live_com i hi
    · intro i hi1 hi2
      have hie : i ≠ 0 := by omega
      rw [hslot_old _ (hunt i (by omega) hie)]
      exact h.live_prov i hi1 hi2
    · intro i hi1 hi2
      have hie : i ≠ 0 := by omega
      rw [hslot_old _ (hunt i hi2 hie)]
      exact h.dead i hi1 hi2
    · intro k hk
      have hkk : s.ddaRingGetPointer = k := by
        have := hk
        simpa using this
      refine ⟨hkk.symm, by omega, ?_⟩
      rw [hslot_new]
    · intro i hi hx
      by_cases hie : i = 0
      · subst hie
        exact ⟨rfl, rfl⟩
      · rw [hslot_old _ (hunt i (by omega) hie)] at hx
        obtain ⟨h1, h2⟩ := h.exec_front i hi hx
        exact absurd h1 hie
  · have hres : moveStep s (MoveEvent.startNext t) = (s, []) := by
      simp only [moveStep]
      rw [if_neg hg]
    rw [hres]
    exact ⟨rfl, h⟩

theorem ringInv_complete {s : MoveState} {e c f : Nat} (h : RingInv s e c f)
    {k : Nat} (hk : s.currentDda = some k) :
    (moveStep s MoveEvent.complete).2 = [c] ∧
    RingInv (moveStep s MoveEvent.complete).1 e (c + 1) (f - 1) := by
  obtain ⟨hkg, hclt, hex⟩ := h.cur k hk
  have hN : (0:Nat) < DdaRingLength := by decide
  have hce := h.hce
  have hcap := h.hcap
  have hff := h.hf
  have hgz : s.ddaRingGetPointer = (c + 0) % DdaRingLength := by
    rw [Nat.add_zero, h.hget]
  have hglen : s.ddaRingGetPointer < s.ring.length := by
    rw [h.hget, h.len]
    exact getIdx_lt c
  have hklen : k < s.ring.length := by
    rw [hkg]
    exact hglen
  have hseq0 : (slotAt s s.ddaRingGetPointer).seqNum = c := by
    have hq := h.live_seq 0 (by omega)
    rw [← hgz] at hq
    simpa using hq
  have hf1 : 1 ≤ f := by
    rcases Nat.eq_zero_or_pos f with h0 | h0
    · exfalso
      have hp := h.live_prov 0 (by omega) (by omega)
      rw [← hgz] at hp
      rw [hex] at hp
      cases hp
    · exact h0
  have hres : moveStep s MoveEvent.complete =
      (CurrentMoveCompleted s, [(slotAt s k).seqNum]) := by
    simp only [moveStep, hk]
  have hcc : CurrentMoveCompleted s = { s with
      currentDda := none
      completedMoves := (s.completedMoves + 1) % uint32Mod
      ring := s.ring.set k emptyDda
      ddaRingGetPointer := (s.ddaRingGetPointer + 1) % DdaRingLength } := by
    simp only [CurrentMoveCompleted, hk]
  have hring : (CurrentMoveCompleted s).ring = s.ring.set k emptyDda := by
    rw [hcc]
  have hgp : (CurrentMoveCompleted s).ddaRingGetPointer =
      (s.ddaRingGetPointer + 1) % DdaRingLength := by
    rw [hcc]
  have hap : (CurrentMoveCompleted s).ddaRingAddPointer = s.ddaRingAddPointer := by
    rw [hcc]
  have hsm : (CurrentMoveCompleted s).scheduledMoves = s.scheduledMoves := by
    rw [hcc]
  have hcm : (CurrentMoveCompleted s).completedMoves =
      (s.completedMoves + 1) % uint32Mod := by
    rw [hcc]
  have hcd : (CurrentMoveCompleted s).currentDda = none := by
    rw [hcc]
  have hslot_new : slotAt (CurrentMoveCompleted s) k = emptyDda := by
    simp only [slotAt]
    rw [hring]
    exact getD_set_self _ _ _ _ hklen
  have hslot_old : ∀ j, j ≠ k →
      slotAt (CurrentMoveCompleted s) j = slotAt s j := by
    intro j hj
    simp only [slotAt]
    rw [hring]
    exact getD_set_ne _ _ _ _ _ (Ne.symm hj)
  have hunt : ∀ i, i < DdaRingLength → i ≠ 0 →
      (c + i) % DdaRingLength ≠ k := by
    intro i hi hne
    rw [hkg, hgz]
    intro heq
    exact hne (ringIdx_inj hi hN heq)
  have hcap20 : e ≤ 20 := by
    simpa [DdaRingLength] using h.hcap
  have hinv : RingInv (CurrentMoveCompleted s) e (c + 1) (f - 1) := by
    refine ⟨?_, by omega, hcap, by omega, ?_, ?_, ?_, ?_, ?_, ?_, ?_, ?_, ?_, ?_⟩
    · rw [hring, List.length_set, h.len]
    · rw [hgp, h.hget]
      simp only [DdaRingLength]
      omega
    · rw [hap, h.hadd]
    · rw [hsm, h.hsch]
    · rw [hcm, h.hcmp]
      apply Nat.mod_eq_of_lt
      simp only [uint32Mod]
      omega
    · intro i hi
      have hidx : c + 1 + i = c + (i + 1) := by omega
      rw [hidx, hslot_old _ (hunt (i + 1) (by omega) (by omega))]
      exact h.live_seq (i + 1) (by omega)
    · intro i hi
      have hidx : c + 1 + i = c + (i + 1) := by omega
      rw [hidx, hslot_old _ (hunt (i + 1) (by omega) (by omega))]
      exact h.live_com (i + 1) (by omega)
    · intro i hi1 hi2
      have hidx : c + 1 + i = c + (i + 1) := by omega
      rw [hidx, hslot_old _ (hunt (i + 1) (by omega) (by omega))]
      exact h.live_prov (i + 1) (by omega) (by omega)
    · intro i hi1 hi2
      have hidx : c + 1 + i = c + (i + 1) := by omega
      by_cases hiN : i + 1 = DdaRingLength
      · have hidx2 : (c + 1 + i) % DdaRingLength = (c + 0) % DdaRingLength := by
          simp only [DdaRingLength] at *
          omega
        rw [hidx2, ← hgz, ← hkg, hslot_new]
        rfl
      · rw [hidx, hslot_old _ (hunt (i + 1) (by omega) (by omega))]
        exact h.dead (i + 1) (by omega) (by omega)
    · intro k2 hk2
      rw [hcd] at hk2
      cases hk2
    · intro i hi hx
      have hidx : c + 1 + i = c + (i + 1) := by omega
      by_cases hiN : i + 1 = DdaRingLength
      · have hidx2 : (c + 1 + i) % DdaRingLength = (c + 0) % DdaRingLength := by
          simp only [DdaRingLength] at *
          omega
        rw [hidx2, ← hgz, ← hkg, hslot_new] at hx
        cases hx
      · rw [hidx, hslot_old _ (hunt (i + 1) (by omega) (by omega))] at hx
        obtain ⟨h1, h2⟩ := h.exec_front (i + 1) (by omega) hx
        omega
  constructor
  · rw [hres]
    show [(slotAt s k).seqNum] = [c]
    rw [hkg, hseq0]
  · rw [hres]
    show RingInv (CurrentMoveCompleted s) e (c + 1) (f - 1)
    exact hinv

theorem ringInv_lookAhead {s : MoveState} {e c f : Nat} (h : RingInv s e c f) :
    ∃ f2, f ≤ f2 ∧ RingInv (DoLookAhead s) e c f2 := by
  have hN : (0:Nat) < DdaRingLength := by decide
  have hce := h.hce
  have hcap := h.hcap
  have hff := h.hf
  have hidxj : ∀ j, (s.ddaRingGetPointer + j) % DdaRingLength =
      (c + j) % DdaRingLength := by
    intro j
    rw [h.hget]
    exact Nat.mod_add_mod c DdaRingLength j
  rcases hscan : scanUncommitted s s.ddaRingGetPointer DdaRingLength 0 with _ | r
  · refine ⟨f, Nat.le_refl f, ?_⟩
    have hres : DoLookAhead s = s := by
      simp only [DoLookAhead, hscan]
    rw [hres]
    exact h
  · obtain ⟨hr0, hrN, hrunc, hrcom⟩ :=
      scanUncommitted_spec s s.ddaRingGetPointer DdaRingLength 0 r hscan
    rw [Nat.zero_add] at hrN
    have hcomF : ∀ j, j < f → committedDda (slotAt s ((c + j) % DdaRingLength)) = true := by
      intro j hj
      rw [committedDda_iff]
      exact h.live_com j hj
    have hprovF : ∀ j, f ≤ j → j < e - c →
        committedDda (slotAt s ((c + j) % DdaRingLength)) = false := by
      intro j hj1 hj2
      have hp := h.live_prov j hj1 hj2
      simp [committedDda, hp]
    have hrf : f ≤ r := by
      by_contra hlt
      have h1 := hcomF r (by omega)
      rw [← hidxj] at h1
      rw [h1] at hrunc
      cases hrunc
    by_cases hre : r < e - c
    · have hrf2 : r = f := by
        by_contra hne
        have hfr : f < r := by omega
        have h1 := hrcom f (by omega) hfr
        have h2 := hprovF f (Nat.le_refl f) (by omega)
        rw [← hidxj] at h2
        rw [h1] at h2
        cases h2
      have hp : (slotAt s ((s.ddaRingGetPointer + r) % DdaRingLength)).dstate =
          DDAState.provisional := by
        rw [hidxj]
        exact h.live_prov r hrf hre
      have hres : DoLookAhead s = { s with
          ring := s.ring.set ((s.ddaRingGetPointer + r) % DdaRingLength)
            ({ slotAt s ((s.ddaRingGetPointer + r) % DdaRingLength) with
               dstate := DDAState.frozen }) } := by
        simp only [DoLookAhead, hscan]
        rw [if_pos hp]
      have hJc : (s.ddaRingGetPointer + r) % DdaRingLength =
          (c + r) % DdaRingLength := hidxj r
      have hJlen : (s.ddaRingGetPointer + r) % DdaRingLength < s.ring.length := by
        rw [h.len]
        exact Nat.mod_lt _ hN
      have hring : (DoLookAhead s).ring =
          s.ring.set ((s.ddaRingGetPointer + r) % DdaRingLength)
            ({ slotAt s ((s.ddaRingGetPointer + r) % DdaRingLength) with
               dstate := DDAState.frozen }) := by
        rw [hres]
      have hgp : (DoLookAhead s).ddaRingGetPointer = s.ddaRingGetPointer := by
        rw [hres]
      have hap : (DoLookAhead s).ddaRingAddPointer = s.ddaRingAddPointer := by
        rw [hres]
      have hsm : (DoLookAhead s).scheduledMoves = s.scheduledMoves := by
        rw [hres]
      have hcm : (DoLookAhead s).completedMoves = s.completedMoves := by
        rw [hres]
      have hcd : (DoLookAhead s).currentDda = s.currentDda := by
        rw [hres]
      have hslot_new : slotAt (DoLookAhead s)
          ((s.ddaRingGetPointer + r) % DdaRingLength) =
          ({ slotAt s ((s.ddaRingGetPointer + r) % DdaRingLength) with
             dstate := DDAState.frozen }) := by
        simp only [slotAt]
        rw [hring]
        exact getD_set_self _ _ _ _ hJlen
      have hslot_old : ∀ j, j ≠ (s.ddaRingGetPointer + r) % DdaRingLength →
          slotAt (DoLookAhead s) j = slotAt s j := by
        intro j hj
        simp only [slotAt]
        rw [hring]
        exact getD_set_ne _ _ _ _ _ (Ne.symm hj)
      have hunt : ∀ i, i < DdaRingLength → i ≠ r →
          (c + i) % DdaRingLength ≠
            (s.ddaRingGetPointer + r) % DdaRingLength := by
        intro i hi hne
        rw [hJc]
        intro heq
        exact hne (ringIdx_inj hi hrN heq)
      refine ⟨f + 1, by omega, ?_⟩
      refine ⟨?_, hce, hcap, by omega, ?_, ?_, ?_, ?_, ?_, ?_, ?_, ?_, ?_, ?_⟩
      · rw [hring, List.length_set, h.len]
      · rw [hgp, h.hget]
      · rw [hap, h.hadd]
      · rw [hsm, h.hsch]
      · rw [hcm, h.hcmp]
      · intro i hi
        by_cases hie : i = r
        · subst hie
          rw [← hJc, hslot_new]
          have hq := h.live_seq i hi
          rw [← hJc] at hq
          exact hq
        · rw [hslot_old _ (hunt i (by omega) hie)]
          exact h.live_seq i hi
      · intro i hi
        by_cases hie : i = r
        · subst hie
          rw [← hJc, hslot_new]
          exact Or.inl rfl
        · have hif : i < f := by omega
          rw [hslot_old _ (hunt i (by omega) hie)]
          exact h.live_com i hif
      · intro i hi1 hi2
        have hie : i ≠ r := by omega
        rw [hslot_old _ (hunt i (by omega) hie)]
        exact h.live_prov i (by omega) hi2
      · intro i hi1 hi2
        have hie : i ≠ r := by omega
        rw [hslot_old _ (hunt i hi2 hie)]
        exact h.dead i hi1 hi2
      · intro k hk
        rw [hcd] at hk
        obtain ⟨h1, h2, h3⟩ := h.cur k hk
        have hfpos : 1 ≤ f := by
          rcases Nat.eq_zero_or_pos f with h0 | h0
          · exfalso
            have hp0 := h.live_prov 0 (by omega) (by omega)
            have hgz : s.ddaRingGetPointer = (c + 0) % DdaRingLength := by
              rw [Nat.add_zero, h.hget]
            rw [← hgz] at hp0
            rw [h3] at hp0
            cases hp0
          · exact h0
        have hgz : s.ddaRingGetPointer = (c + 0) % DdaRingLength := by
          rw [Nat.add_zero, h.hget]
        refine ⟨by rw [hgp]; exact h1, h2, ?_⟩
        rw [hgp, hgz, hslot_old _ (hunt 0 hN (by omega))]
        rw [← hgz]
        exact h3
      · intro i hi hx
        by_cases hie : i = r
        · subst hie
          rw [← hJc, hslot_new] at hx
          cases hx
        · rw [hslot_old _ (hunt i (by omega) hie)] at hx
          obtain ⟨h1, h2⟩ := h.exec_front i hi hx
          rw [hgp, hcd]
          exact ⟨h1, h2⟩
    · have hp : (slotAt s ((s.ddaRingGetPointer + r) % DdaRingLength)).dstate =
          DDAState.empty := by
        rw [hidxj]
        exact h.dead r (by omega) hrN
      have hres : DoLookAhead s = s := by
        simp only [DoLookAhead, hscan]
        rw [if_neg]
        rw [hp]
        intro hq
        cases hq
      refine ⟨f, Nat.le_refl f, ?_⟩
      rw [hres]
      exact h

theorem ringInv_moveStep {s : MoveState} {e c f : Nat} (h : RingInv s e c f)
    {ev : MoveEvent} (hev : ev ≠ MoveEvent.reset)
    (hcap : e + countEnqueues [ev] ≤ DdaRingLength) :
    ∃ c2 f2, c ≤ c2 ∧
      RingInv (moveStep s ev).1 (e + countEnqueues [ev]) c2 f2 ∧
      (moveStep s ev).2 = List.range' c (c2 - c) := by
  cases ev with
  | enqueue steps intervals =>
    have hcap1 : e + 1 ≤ DdaRingLength := hcap
    obtain ⟨h1, h2⟩ := ringInv_enqueue h hcap1 steps intervals
    refine ⟨c, f, Nat.le_refl c, ?_, ?_⟩
    · show RingInv (DDARingAdd s steps intervals).2 (e + 1) c f
      exact h2
    · show ([] : List Nat) = List.range' c (c - c)
      simp
  | lookAhead =>
    obtain ⟨f2, hf2, h2⟩ := ringInv_lookAhead h
    refine ⟨c, f2, Nat.le_refl c, ?_, ?_⟩
    · show RingInv (DoLookAhead s) (e + 0) c f2
      simpa using h2
    · show ([] : List Nat) = List.range' c (c - c)
      simp
  | startNext t =>
    obtain ⟨h1, h2⟩ := ringInv_startNext h t
    refine ⟨c, f, Nat.le_refl c, ?_, ?_⟩
    · have : e + countEnqueues [MoveEvent.startNext t] = e := rfl
      rw [this]
      exact h2
    · rw [h1]
      simp
  | complete =>
    rcases hk : s.currentDda with _ | k
    · refine ⟨c, f, Nat.le_refl c, ?_, ?_⟩
      · have hres : moveStep s MoveEvent.complete = (s, []) := by
          simp only [moveStep, hk]
        rw [hres]
        exact h
      · have hres : moveStep s MoveEvent.complete = (s, []) := by
          simp only [moveStep, hk]
        rw [hres]
        simp
    · obtain ⟨h1, h2⟩ := ringInv_complete h hk
      refine ⟨c + 1, f - 1, by omega, ?_, ?_⟩
      · exact h2
      · rw [h1]
        have hc1 : c + 1 - c = 1 := by omega
        rw [hc1]
        simp [List.range']
  | interrupt =>
    refine ⟨c, f, Nat.le_refl c, ?_, ?_⟩
    · show RingInv (Interrupt s) (e + 0) c f
      simpa using ringInv_interrupt h
    · show ([] : List Nat) = List.range' c (c - c)
      simp
  | reset => exact absurd rfl hev

theorem countEnqueues_cons (ev : MoveEvent) (es : List MoveEvent) :
    countEnqueues (ev :: es) = countEnqueues [ev] + countEnqueues es := by
  cases ev <;> simp [countEnqueues, Nat.add_comm]

theorem runMove_ringInv : ∀ (tr : List MoveEvent) (s : MoveState) (e c f : Nat),
    RingInv s e c f → e + countEnqueues tr ≤ DdaRingLength →
    MoveEvent.reset ∉ tr →
    ∃ c2 f2, c ≤ c2 ∧ RingInv (runMove s tr).1 (e + countEnqueues tr) c2 f2 ∧
      (runMove s tr).2 = List.range' c (c2 - c) := by
  intro tr
  induction tr with
  | nil =>
    intro s e c f h hcap hnm
    refine ⟨c, f, Nat.le_refl c, ?_, ?_⟩
    · show RingInv s (e + 0) c f
      simpa using h
    · show ([] : List Nat) = List.range' c (c - c)
      simp
  | cons ev es ih =>
    intro s e c f h hcap hnm
    have hev : ev ≠ MoveEvent.reset := by
      intro hq
      exact hnm (hq ▸ List.mem_cons_self ev es)
    have hnm2 : MoveEvent.reset ∉ es := fun hq => hnm (List.mem_cons_of_mem _ hq)
    have hcc := countEnqueues_cons ev es
    have hcap1 : e + countEnqueues [ev] ≤ DdaRingLength := by omega
    obtain ⟨c1, f1, hc1, h1, hout1⟩ := ringInv_moveStep h hev hcap1
    have hcap2 : (e + countEnqueues [ev]) + countEnqueues es ≤ DdaRingLength := by
      omega
    obtain ⟨c2, f2, hc2, h2, hout2⟩ :=
      ih (moveStep s ev).1 (e + countEnqueues [ev]) c1 f1 h1 hcap2 hnm2
    refine ⟨c2, f2, Nat.le_trans hc1 hc2, ?_, ?_⟩
    · have hee : e + countEnqueues (ev :: es) =
          e + countEnqueues [ev] + countEnqueues es := by omega
      rw [hee]
      show RingInv (runMove (moveStep s ev).1 es).1
        (e + countEnqueues [ev] + countEnqueues es) c2 f2
      exact h2
    · show (moveStep s ev).2 ++ (runMove (moveStep s ev).1 es).2 =
        List.range' c (c2 - c)
      rw [hout1, hout2]
      have h3 := List.range'_append c (c1 - c) (c2 - c1) 1
      have he1 : c + 1 * (c1 - c) = c1 := by omega
      have he2 : (c2 - c1) + (c1 - c) = c2 - c := by omega
      rw [he1, he2] at h3
      exact h3

/-- C5.  Starting from `Init`, for every event trace with at most
`DdaRingLength` enqueues and no counter reset, the observed completions are
exactly the sequence numbers `0, 1, …` in strict enqueue (FIFO) order and their
count equals `GetCompletedMoves`; moreover a single event either leaves the
completed-move counter unchanged (observing no completion) or increments it by
exactly one while observing one completion, and only `ResetMoveCounters` ever
lowers it (to zero). -/
theorem movesCompleteFifo :
    (∀ tr : List MoveEvent, countEnqueues tr ≤ DdaRingLength →
      MoveEvent.reset ∉ tr →
      (runMove initMove tr).2 =
        List.range (GetCompletedMoves (runMove initMove tr).1)) ∧
    (∀ (s : MoveState) (ev : MoveEvent), ev ≠ MoveEvent.reset →
      ((moveStep s ev).1.completedMoves = (s.completedMoves + 1) % uint32Mod ∧
        (moveStep s ev).2 ≠ []) ∨
      ((moveStep s ev).1.completedMoves = s.completedMoves ∧
        (moveStep s ev).2 = [])) ∧
    (∀ s : MoveState, (moveStep s MoveEvent.reset).1.completedMoves = 0) := by
  refine ⟨?_, ?_, ?_⟩
  · intro tr hcap hnm
    obtain ⟨c2, f2, hc2, h2, hout⟩ :=
      runMove_ringInv tr initMove 0 0 0 ringInv_init (by simpa using hcap) hnm
    have hcm : GetCompletedMoves (runMove initMove tr).1 = c2 := h2.hcmp
    rw [hcm, hout]
    have : c2 - 0 = c2 := by omega
    rw [this]
    exact (List.range_eq_range' c2).symm
  · intro s ev hev
    cases ev with
    | enqueue steps intervals =>
      right
      simp only [moveStep, DDARingAdd]
      split <;> exact ⟨by trivial, by trivial⟩
    | lookAhead =>
      right
      rcases hscan : scanUncommitted s s.ddaRingGetPointer DdaRingLength 0 with _ | r
      · simp only [moveStep, DoLookAhead, hscan]
        exact ⟨by trivial, by trivial⟩
      · simp only [moveStep, DoLookAhead, hscan]
        split <;> exact ⟨by trivial, by trivial⟩
    | startNext t =>
      right
      simp only [moveStep]
      split <;> exact ⟨by trivial, by trivial⟩
    | complete =>
      rcases hk : s.currentDda with _ | k
      · right
        simp only [moveStep, hk]
        exact ⟨by trivial, by trivial⟩
      · left
        simp only [moveStep, hk, CurrentMoveCompleted]
        exact ⟨by trivial, by simp⟩
    | interrupt =>
      right
      rcases hk : s.currentDda with _ | k
      · simp only [moveStep, Interrupt, hk]
        exact ⟨by trivial, by trivial⟩
      · simp only [moveStep, Interrupt, hk]
        exact ⟨by trivial, by trivial⟩
    | reset => exact absurd rfl hev
  · intro s
    rfl

theorem movesCompleteFifo_witness :
    countEnqueues fifoTrace ≤ DdaRingLength ∧
    MoveEvent.reset ∉ fifoTrace ∧
    (runMove initMove fifoTrace).2 =
      List.range (GetCompletedMoves (runMove initMove fifoTrace).1) ∧
    GetCompletedMoves (runMove initMove fifoTrace).1 = 2 ∧
    (runMove initMove fifoTrace).2 = [0, 1] :=
  ⟨by decide, by decide,
   movesCompleteFifo.1 fifoTrace (by decide) (by decide),
   by decide, by decide⟩

theorem moveStep_ring_length (s : MoveState) (ev : MoveEvent) :
    (moveStep s ev).1.ring.length = s.ring.length := by
  cases ev with
  | enqueue steps intervals =>
    simp only [moveStep, DDARingAdd]
    split <;> simp
  | lookAhead =>
    simp only [moveStep, DoLookAhead]
    rcases scanUncommitted s s.ddaRingGetPointer DdaRingLength 0 with _ | i
    · rfl
    · simp only []
      split <;> simp
  | startNext t =>
    simp only [moveStep]
    split
    · simp [StartNextMove]
    · rfl
  | complete =>
    simp only [moveStep]
    rcases h : s.currentDda with _ | i
    · rfl
    · simp [CurrentMoveCompleted, h]
  | interrupt =>
    simp only [moveStep, Interrupt]
    rcases s.currentDda with _ | i
    · rfl
    · simp
  | reset => rfl

/-- C1.  `DDARingEmpty` returns true exactly when the get cursor equals the
add cursor and the slot at the add cursor is in state `empty`; cursor equality
alone is not sufficient, as witnessed by the reachable completely full ring, in
which the cursors coincide but the ring is not empty. -/
theorem ddaRingEmpty_iff_cursors_eq_and_slot_empty :
    (∀ s : MoveState, DDARingEmpty s = true ↔
      (s.ddaRingGetPointer = s.ddaRingAddPointer ∧
        (slotAt s s.ddaRingAddPointer).dstate = DDAState.empty)) ∧
    (fullRingState.ddaRingGetPointer = fullRingState.ddaRingAddPointer ∧
      DDARingEmpty fullRingState = false) := by
  constructor
  · intro s
    simp [DDARingEmpty, Bool.and_eq_true, beq_iff_eq]
  · exact ⟨by decide, by decide⟩

/-- C2.  Under the documented precondition that the descriptor at the get
cursor is `frozen`, `StartNextMove` installs exactly that descriptor as
`currentDda`, returns the result of that descriptor's `Start(startTime)`, and
the installed descriptor is not `provisional` (it becomes `executing`). -/
theorem startNextMove_installs_frozen (s : MoveState) (startTime : Nat)
    (h : (slotAt s s.ddaRingGetPointer).dstate = DDAState.frozen) :
    (StartNextMove s startTime).2.currentDda = some s.ddaRingGetPointer ∧
    (StartNextMove s startTime).1 =
      (ddaStart (slotAt s s.ddaRingGetPointer) startTime).1 ∧
    (slotAt s s.ddaRingGetPointer).dstate ≠ DDAState.provisional ∧
    (ddaStart (slotAt s s.ddaRingGetPointer) startTime).2.dstate =
      DDAState.executing := by
  refine ⟨rfl, rfl, ?_, rfl⟩
  rw [h]
  intro hc
  cases hc

theorem startNextMove_installs_frozen_witness :
    (slotAt frozenFrontState frozenFrontState.ddaRingGetPointer).dstate =
      DDAState.frozen ∧
    (StartNextMove frozenFrontState 0).2.currentDda =
      some frozenFrontState.ddaRingGetPointer :=
  ⟨by decide, (startNextMove_installs_frozen frozenFrontState 0 (by decide)).1⟩

/-- C3.  `Interrupt` returns immediately without calling `Step` when
`currentDda` is null; otherwise it runs `do { } while (currentDda->Step())` on
the current descriptor, whose loop makes exactly `leadingTrues + 1` calls to
`Step`: every earlier call returns true and the final, stopping call is the
first to return false (`ddaStep` consumes the descriptor's oracle sequence). -/
theorem interrupt_steps_until_false :
    (∀ s : MoveState, s.currentDda = none → Interrupt s = s) ∧
    (∀ (s : MoveState) (i : Nat), s.currentDda = some i →
      Interrupt s = { s with ring := s.ring.set i (consumeSteps (slotAt s i)) }) ∧
    (∀ l : List Bool,
      (stepLoop l).1 = leadingTrues l + 1 ∧
      (∀ k, k < leadingTrues l → l.getD k false = true) ∧
      l.getD (leadingTrues l) false = false) ∧
    (∀ d : DDA, (ddaStep d).1 = false →
      stepLoop d.stepSeq = (1, (ddaStep d).2.stepSeq)) ∧
    (∀ d : DDA, (ddaStep d).1 = true →
      (stepLoop d.stepSeq).1 = (stepLoop (ddaStep d).2.stepSeq).1 + 1 ∧
      (stepLoop d.stepSeq).2 = (stepLoop (ddaStep d).2.stepSeq).2) := by
  refine ⟨?_, ?_, ?_, ?_, ?_⟩
  · intro s h
    simp [Interrupt, h]
  · intro s i h
    simp [Interrupt, h, consumeSteps]
  · intro l
    induction l with
    | nil => exact ⟨rfl, fun k hk => absurd hk (by simp [leadingTrues]), rfl⟩
    | cons b rest ih =>
      cases b with
      | false =>
        refine ⟨rfl, fun k hk => absurd hk ?_, rfl⟩
        simp [leadingTrues]
      | true =>
        refine ⟨?_, ?_, ?_⟩
        · show (stepLoop rest).1 + 1 = leadingTrues rest + 1 + 1
          rw [ih.1]
        · intro k hk
          cases k with
          | zero => rfl
          | succ k =>
            have hk' : k < leadingTrues rest := by
              have : k + 1 < leadingTrues rest + 1 := hk
              omega
            exact ih.2.1 k hk'
        · exact ih.2.2
  · intro d h
    rcases hs : d.stepSeq with _ | ⟨b, rest⟩
    · simp [ddaStep, hs, stepLoop]
    · have hb : b = false := by
        have := h
        rw [ddaStep, hs] at this
        exact this
      subst hb
      simp [ddaStep, hs, stepLoop]
  · intro d h
    rcases hs : d.stepSeq with _ | ⟨b, rest⟩
    · rw [ddaStep, hs] at h
      cases h
    · have hb : b = true := by
        have := h
        rw [ddaStep, hs] at this
        exact this
      subst hb
      constructor <;> simp [ddaStep, hs, stepLoop]

theorem interrupt_steps_until_false_witness :
    Interrupt initMove = initMove ∧
    (stepLoop [true, true, false]).1 = 3 :=
  ⟨interrupt_steps_until_false.1 initMove rfl,
   by
    have h := (interrupt_steps_until_false.2.2.1 [true, true, false]).1
    simpa using h⟩

/-- C4.  `AllMovesAreFinished` is a side-effect-free query: it leaves the
entire state (ring, cursors, `currentDda`, counters) unchanged, its result is
`DDARingEmpty && currentDda == nullptr`, and repeated calls return the same
value. -/
theorem allMovesAreFinished_pure_query :
    ∀ s : MoveState,
      (AllMovesAreFinished s).2 = s ∧
      (AllMovesAreFinished s).1 = (DDARingEmpty s && s.currentDda == none) ∧
      (AllMovesAreFinished (AllMovesAreFinished s).2).1 =
        (AllMovesAreFinished s).1 :=
  fun _ => ⟨rfl, rfl, rfl⟩

/-- C6.  The ring capacity is a compile-time constant: 30 in the
SAM4E/SAM4S/SAME70 build variant and 20 otherwise (this board's `Move.h` fixes
it at 20), always between 20 and 30 inclusive; and no operation changes the
size of the ring. -/
theorem ddaRingLength_bounds :
    (∀ s4e s4s s70 : Bool, (s4e || s4s || s70) = true →
      DdaRingLengthVariant s4e s4s s70 = 30) ∧
    (∀ s4e s4s s70 : Bool, (s4e || s4s || s70) = false →
      DdaRingLengthVariant s4e s4s s70 = 20) ∧
    DdaRingLength = 20 ∧
    (∀ s4e s4s s70 : Bool, 20 ≤ DdaRingLengthVariant s4e s4s s70 ∧
      DdaRingLengthVariant s4e s4s s70 ≤ 30) ∧
    (∀ (s : MoveState) (ev : MoveEvent),
      (moveStep s ev).1.ring.length = s.ring.length) :=
  ⟨by decide, by decide, rfl, by decide, moveStep_ring_length⟩

theorem ddaRingLength_bounds_witness :
    DdaRingLengthVariant true false false = 30 ∧
    DdaRingLengthVariant false false false = 20 :=
  ⟨ddaRingLength_bounds.1 true false false (by decide),
   ddaRingLength_bounds.2.1 false false false (by decide)⟩

/-- C7.  `ResetMoveCounters` zeroes the scheduled- and completed-move counters
(as observed through `GetScheduledMoves` and `GetCompletedMoves`) and changes
nothing else: the hiccup count later returned by `GetAndClearHiccups`, the
step-error count, the ring, all three cursors and `currentDda` are unchanged. -/
theorem resetMoveCounters_frame :
    ∀ s : MoveState,
      GetScheduledMoves (ResetMoveCounters s) = 0 ∧
      GetCompletedMoves (ResetMoveCounters s) = 0 ∧
      (GetAndClearHiccups (ResetMoveCounters s)).1 = (GetAndClearHiccups s).1 ∧
      (ResetMoveCounters s).numHiccups = s.numHiccups ∧
      (ResetMoveCounters s).stepErrors = s.stepErrors ∧
      (ResetMoveCounters s).ring = s.ring ∧
      (ResetMoveCounters s).ddaRingAddPointer = s.ddaRingAddPointer ∧
      (ResetMoveCounters s).ddaRingGetPointer = s.ddaRingGetPointer ∧
      (ResetMoveCounters s).ddaRingCheckPointer = s.ddaRingCheckPointer ∧
      (ResetMoveCounters s).currentDda = s.currentDda :=
  fun _ => ⟨rfl, rfl, rfl, rfl, rfl, rfl, rfl, rfl, rfl, rfl⟩

/-- C10.  `GetStepInterval` captures the volatile `currentDda` once: if the
captured value is null it returns 0 without consulting any descriptor,
otherwise it returns the captured descriptor's step interval for the axis. -/
theorem getStepInterval_zero_when_idle :
    (∀ (s : MoveState) (axis sh : Nat), s.currentDda = none →
      GetStepInterval s axis sh = 0) ∧
    (∀ (s : MoveState) (i axis sh : Nat), s.currentDda = some i →
      GetStepInterval s axis sh = DDAGetStepInterval (slotAt s i) axis sh) := by
  constructor
  · intro s axis sh h
    simp [GetStepInterval, h]
  · intro s i axis sh h
    simp [GetStepInterval, h]

theorem getStepInterval_zero_when_idle_witness :
    GetStepInterval initMove 0 0 = 0 ∧
    GetStepInterval runningState 0 0 =
      DDAGetStepInterval (slotAt runningState 0) 0 0 :=
  ⟨getStepInterval_zero_when_idle.1 initMove 0 0 rfl,
   getStepInterval_zero_when_idle.2 runningState 0 0 0 (by decide)⟩

theorem adcInv_init : AdcInv adcInit := by
  refine ⟨?_, ?_, ?_, ?_, ?_, ?_, ?_⟩ <;> decide

theorem adcApply_inv (s : AdcState) (ev : AdcEvent) (h : AdcInv s) :
    AdcInv (adcApply s ev) := by
  obtain ⟨h1, h2, h3, h4, h5, h6, h7⟩ := h
  have hint : ∀ chan refCtrl fn p t n, s.numChannelsEnabled ≠ MaxSequenceLength →
      AdcInv (InternalEnableChannel s chan refCtrl fn p t n).2 := by
    intro chan refCtrl fn p t n hne
    simp only [InternalEnableChannel]
    split
    · refine ⟨?_, ?_, ?_, ?_, ?_, ?_, ?_⟩
      · show s.numChannelsEnabled + 1 ≤ MaxSequenceLength
        simp only [MaxSequenceLength] at *
        omega
      · show (s.callbackFunctions.set s.numChannelsEnabled fn).length =
          MaxSequenceLength
        rw [List.length_set]
        exact h2
      · show (s.callbackParams.set s.numChannelsEnabled p).length =
          MaxSequenceLength
        rw [List.length_set]
        exact h3
      · show (s.ticksPerCall.set s.numChannelsEnabled t).length =
          MaxSequenceLength
        rw [List.length_set]
        exact h4
      · show (s.ticksAtLastCall.set s.numChannelsEnabled n).length =
          MaxSequenceLength
        rw [List.length_set]
        exact h5
      · show ((s.inputRegisters.set (2 * s.numChannelsEnabled)
            (ADC_INPUTCTRL_MUXNEG_GND ||| chan)).set
            (2 * s.numChannelsEnabled + 1) refCtrl).length =
          2 * MaxSequenceLength
        rw [List.length_set, List.length_set]
        exact h6
      · show (s.resultsByChannel.set chan 0).length = NumAdcChannels
        rw [List.length_set]
        exact h7
    · exact ⟨h1, h2, h3, h4, h5, h6, h7⟩
  cases ev with
  | enableChannel c fn p t n =>
    show AdcInv (EnableChannel s c fn p t n).2
    simp only [EnableChannel]
    split
    · exact ⟨h1, h2, h3, h4, h5, h6, h7⟩
    · rename_i hg
      push_neg at hg
      exact hint c _ fn p t n hg.1
  | enableTempSensor sn fn p t n =>
    show AdcInv (EnableTemperatureSensor s sn fn p t n).2
    simp only [EnableTemperatureSensor]
    split
    · exact ⟨h1, h2, h3, h4, h5, h6, h7⟩
    · rename_i hg
      push_neg at hg
      exact hint _ _ fn p t n hg.1

theorem runAdc_inv : ∀ (evs : List AdcEvent) (s : AdcState),
    AdcInv s → AdcInv (runAdc s evs) := by
  intro evs
  induction evs with
  | nil => intro s h; exact h
  | cons ev es ih =>
    intro s h
    exact ih _ (adcApply_inv s ev h)

/-- C9.  The ADC conversion-sequence bound is never exceeded: over every
sequence of enable calls `numChannelsEnabled` stays at most
`MaxSequenceLength`; an enable call on a full sequence, or with an
out-of-range channel or sensor number, returns false with the state unchanged;
and on every successful enable from a reachable state the pre-call count is
strictly below `MaxSequenceLength`, so the slot writes (index
`numChannelsEnabled`, register indices `2*numChannelsEnabled(+1)`, result
index `chan`) all lie within the fixed array bounds. -/
theorem adcSequenceBounded :
    (∀ evs : List AdcEvent,
      (runAdc adcInit evs).numChannelsEnabled ≤ MaxSequenceLength) ∧
    (∀ (s : AdcState) (chan fn p t n : Nat),
      s.numChannelsEnabled = MaxSequenceLength →
      EnableChannel s chan fn p t n = (false, s)) ∧
    (∀ (s : AdcState) (sn fn p t n : Nat),
      s.numChannelsEnabled = MaxSequenceLength →
      EnableTemperatureSensor s sn fn p t n = (false, s)) ∧
    (∀ (s : AdcState) (chan fn p t n : Nat), MaxSequenceLength ≤ chan →
      EnableChannel s chan fn p t n = (false, s)) ∧
    (∀ (s : AdcState) (sn fn p t n : Nat), 2 ≤ sn →
      EnableTemperatureSensor s sn fn p t n = (false, s)) ∧
    (∀ (evs : List AdcEvent) (chan fn p t n : Nat),
      (EnableChannel (runAdc adcInit evs) chan fn p t n).1 = true →
      (runAdc adcInit evs).numChannelsEnabled < MaxSequenceLength ∧
      chan < MaxSequenceLength ∧
      2 * (runAdc adcInit evs).numChannelsEnabled + 1 <
        (runAdc adcInit evs).inputRegisters.length ∧
      chan < (runAdc adcInit evs).resultsByChannel.length) ∧
    (∀ (evs : List AdcEvent) (sn fn p t n : Nat),
      (EnableTemperatureSensor (runAdc adcInit evs) sn fn p t n).1 = true →
      (runAdc adcInit evs).numChannelsEnabled < MaxSequenceLength ∧
      sn + ADC_INPUTCTRL_MUXPOS_PTAT_Val <
        (runAdc adcInit evs).resultsByChannel.length) := by
  refine ⟨?_, ?_, ?_, ?_, ?_, ?_, ?_⟩
  · intro evs
    exact (runAdc_inv evs adcInit adcInv_init).1
  · intro s chan fn p t n hfull
    rw [EnableChannel, if_pos (Or.inl hfull)]
  · intro s sn fn p t n hfull
    rw [EnableTemperatureSensor, if_pos (Or.inl hfull)]
  · intro s chan fn p t n hrange
    rw [EnableChannel, if_pos (Or.inr hrange)]
  · intro s sn fn p t n hrange
    rw [EnableTemperatureSensor, if_pos (Or.inr hrange)]
  · intro evs chan fn p t n hsucc
    obtain ⟨h1, h2, h3, h4, h5, h6, h7⟩ := runAdc_inv evs adcInit adcInv_init
    by_cases hg : (runAdc adcInit evs).numChannelsEnabled = MaxSequenceLength ∨
        MaxSequenceLength ≤ chan
    · rw [EnableChannel, if_pos hg] at hsucc
      cases hsucc
    · push_neg at hg
      rw [h6, h7]
      simp only [MaxSequenceLength, NumAdcChannels] at *
      omega
  · intro evs sn fn p t n hsucc
    obtain ⟨h1, h2, h3, h4, h5, h6, h7⟩ := runAdc_inv evs adcInit adcInv_init
    by_cases hg : (runAdc adcInit evs).numChannelsEnabled = MaxSequenceLength ∨
        2 ≤ sn
    · rw [EnableTemperatureSensor, if_pos hg] at hsucc
      cases hsucc
    · push_neg at hg
      rw [h7]
      simp only [MaxSequenceLength, NumAdcChannels,
        ADC_INPUTCTRL_MUXPOS_PTAT_Val] at *
      omega

theorem adcSequenceBounded_witness :
    fullAdcState.numChannelsEnabled = MaxSequenceLength ∧
    EnableChannel fullAdcState 3 0 0 0 0 = (false, fullAdcState) ∧
    EnableChannel adcInit 16 0 0 0 0 = (false, adcInit) ∧
    (runAdc adcInit []).numChannelsEnabled ≤ MaxSequenceLength :=
  ⟨by decide,
   adcSequenceBounded.2.1 fullAdcState 3 0 0 0 0 (by decide),
   adcSequenceBounded.2.2.2.1 adcInit 16 0 0 0 0 (by decide),
   adcSequenceBounded.1 []⟩

/-- C8.  Evaluation of the driver over-temperature check at the failing input
`stat = TMC_RR_OT`: the OT bit is set, so the claim's condition holds, yet the
code's test `(stat & (TMC_RR_OT || TMC_RR_OTPW)) != 0` is false — the C++
logical `||` collapses the two masks to the integer 1 — so the report contains
no over-temperature line and the test is not marked failed. -/
theorem generateTestReport_ot_missed :
    overTempClaim TMC_RR_OT = true ∧
    overTempCode TMC_RR_OT = false ∧
    cppLogicalOr TMC_RR_OT TMC_RR_OTPW = 1 ∧
    (GenerateTestReport [TMC_RR_OT]).1 =
      ["Driver status OK", "All checks passed"] ∧
    (GenerateTestReport [TMC_RR_OT]).2 = false := by
  refine ⟨by decide, by decide, by decide, ?_, by decide⟩
  decide

end Duet
